import Mathlib

/-!
Verification of the frame-synchronization and mesh-construction core of the
Metal- rendering engine, against its specification.

The repository ships `src/src/Core/Components/mesh.hpp` and
`src/src/Core/engine.hpp`.  The inline `operator==(Vertex, Vertex)`,
the `std::hash` specializations and the constant `MaxFramesInFlight = 3`
are source code and are embedded below directly from those files.
Member-function bodies (`Mesh::loadObj`, `Mesh::calculateTangentSpace`,
`Engine::beginFrame`, `Engine::endFrame`, `Engine::drawShadow`) are not
part of the sources; where a claim depends on them they are modelled from
the specification, each such definition saying so in its doc comment.
-/

namespace MetalCore

/-- Model of an IEEE-754 binary32 value at the granularity the embedded code
observes.  `num v` stands for a finite nonzero float, identified by its
(unique) bit pattern `v`; every finite nonzero IEEE value has exactly one
representation, so distinct `v` means both distinct bits and distinct
numeric values.  `pzero` and `nzero` are the two zero bit patterns (equal
numeric value, distinct bits).  `nan` stands for a NaN bit pattern.
Structural equality of `FP` is bit-for-bit identity of the float. -/
inductive FP where
  | nan : FP
  | pzero : FP
  | nzero : FP
  | num : Int → FP
deriving DecidableEq, Repr

/-- IEEE-754 `==` on floats, as used field-by-field by
`operator==(const Vertex&, const Vertex&)` (mesh.hpp lines 18-28):
NaN compares unequal to everything (including itself), `+0.0 == -0.0`
holds, and finite nonzero values compare equal exactly when their bit
patterns coincide. -/
def FP.ieeeEq : FP → FP → Bool
  | .nan, _ => false
  | _, .nan => false
  | .pzero, .pzero => true
  | .pzero, .nzero => true
  | .nzero, .pzero => true
  | .nzero, .nzero => true
  | .pzero, .num _ => false
  | .nzero, .num _ => false
  | .num _, .pzero => false
  | .num _, .nzero => false
  | .num a, .num b => a = b

/-- Three-component float vector (`simd::float3`). -/
structure Float3 where
  x : FP
  y : FP
  z : FP
deriving DecidableEq, Repr

/-- Two-component float vector (`simd::float2`). -/
structure Float2 where
  x : FP
  y : FP
deriving DecidableEq, Repr

/-- The `Vertex` record: position, normal, texture coordinate and diffuse
texture index; exactly the fields read by `operator==` and
`std::hash<Vertex>` in mesh.hpp.  (`operator==` compares `position.x/y/z`
and the hash uses `position.xyz`, so any fourth component of a simd
position is invisible to both and is omitted here.) -/
structure Vertex where
  position : Float3
  normal : Float3
  textureCoordinate : Float2
  diffuseTextureIndex : Int
deriving DecidableEq, Repr

/-- Embedding of `operator==(const Vertex& lhs, const Vertex& rhs)`
(mesh.hpp lines 18-28): conjunction of IEEE float comparisons of
position.x/y/z, normal.x/y/z, textureCoordinate.x/y, and integer equality
of diffuseTextureIndex. -/
def vertexEq (lhs rhs : Vertex) : Bool :=
  lhs.position.x.ieeeEq rhs.position.x &&
  lhs.position.y.ieeeEq rhs.position.y &&
  lhs.position.z.ieeeEq rhs.position.z &&
  lhs.normal.x.ieeeEq rhs.normal.x &&
  lhs.normal.y.ieeeEq rhs.normal.y &&
  lhs.normal.z.ieeeEq rhs.normal.z &&
  lhs.textureCoordinate.x.ieeeEq rhs.textureCoordinate.x &&
  lhs.textureCoordinate.y.ieeeEq rhs.textureCoordinate.y &&
  (lhs.diffuseTextureIndex = rhs.diffuseTextureIndex)

/-- Model of `std::hash<float>`: a function of the bit pattern subject to
the C++ Hash requirement that `a == b` implies `h(a) == h(b)`, hence
`h(+0.0) = h(-0.0)`; distinct finite nonzero bit patterns may hash
distinctly (modelled injectively). -/
def hashFloat : FP → Nat
  | .nan => 1
  | .pzero => 0
  | .nzero => 0
  | .num v => 2 + 2 * v.natAbs + (if v < 0 then 1 else 0)

/-- Model of `std::hash<int>` (injective on the value). -/
def hashInt (v : Int) : Nat :=
  2 * v.natAbs + (if v < 0 then 1 else 0)

/-- Width of `size_t`. -/
def sizeTMod : Nat := 2 ^ 64

/-- Embedding of `std::hash<simd::float3>` (mesh.hpp lines 31-38):
`h1 ^ (h2 << 1) ^ (h3 << 2)` over the component hashes, in `size_t`
arithmetic. -/
def hashFloat3 (v : Float3) : Nat :=
  ((hashFloat v.x) ^^^ (hashFloat v.y <<< 1) ^^^ (hashFloat v.z <<< 2)) % sizeTMod

/-- Embedding of `std::hash<simd::float2>` (mesh.hpp lines 40-46):
`h1 ^ (h2 << 1)` over the component hashes, in `size_t` arithmetic. -/
def hashFloat2 (v : Float2) : Nat :=
  ((hashFloat v.x) ^^^ (hashFloat v.y <<< 1)) % sizeTMod

/-- Embedding of `std::hash<Vertex>` (mesh.hpp lines 48-57):
`h1 ^ (h2 << 1) ^ (h3 << 2) ^ (h4 << 3)` over the hashes of position,
normal, textureCoordinate and diffuseTextureIndex. -/
def hashVertex (vertex : Vertex) : Nat :=
  ((hashFloat3 vertex.position) ^^^
   (hashFloat3 vertex.normal <<< 1) ^^^
   (hashFloat2 vertex.textureCoordinate <<< 2) ^^^
   (hashInt vertex.diffuseTextureIndex <<< 3)) % sizeTMod

/-- Modelled from the spec: the body of `Mesh::loadObj` is not in the
sources (mesh.hpp line 68 is only its declaration), so the deduplication
loop is taken from spec section 4.1: "maintain a mapping from vertex value
to assigned index; for each input vertex, look up its exact value; if
present, emit the existing index; otherwise append it to the unique
sequence and record the new index."  The lookup uses the source
`operator==` (embedded as `vertexEq`), which is the equality of the
`std::unordered_map<Vertex, uint32_t> vertexMap` member (mesh.hpp
line 76).  State: the unique vertices so far and the emitted indices. -/
def dedupStep (acc : List Vertex × List Nat) (v : Vertex) : List Vertex × List Nat :=
  match (acc.1.findIdx? fun u => vertexEq u v) with
  | some i => (acc.1, acc.2 ++ [i])
  | none => (acc.1 ++ [v], acc.2 ++ [acc.1.length])

/-- Modelled from the spec: the whole deduplication pass of
`Mesh::loadObj`, folding `dedupStep` over the raw vertex stream. -/
def dedup (input : List Vertex) : List Vertex × List Nat :=
  input.foldl dedupStep ([], [])

/-- The constant `MaxFramesInFlight` (engine.hpp line 31). -/
def MaxFramesInFlight : Nat := 3

/-- Modelled from the spec: the bodies of `Engine::beginFrame` and
`Engine::endFrame` are not in the sources (engine.hpp lines 48-49 are
only their declarations), so the frame scheduler is modelled from spec
sections 4.4 and 5 as a state machine over the members declared in
engine.hpp: the counting semaphore (`inFlightSemaphore` /
`frameSemaphores`, bounded to `MaxFramesInFlight`), the round-robin slot
index (`currentFrameIndex` / `frameDataBufferIndex`), and event counters
for `beginFrame` calls, command-buffer submissions (`endFrame`) and GPU
completion callbacks. -/
structure EngineState where
  semCount : Nat
  begun : Nat
  submitted : Nat
  completed : Nat
  frameIndex : Nat
deriving DecidableEq, Repr

/-- The initial scheduler state: the counting semaphore holds
`MaxFramesInFlight` tokens, no frame has been begun, submitted or
completed, and the slot index is zero. -/
def initState : EngineState :=
  { semCount := MaxFramesInFlight, begun := 0, submitted := 0,
    completed := 0, frameIndex := 0 }

/-- Modelled from the spec: `Engine::beginFrame` "blocks (bounded wait)
until a frame slot's synchronization token indicates the GPU has finished
consuming that slot's previous submission; selects the next slot
round-robin; returns a handle to that slot's uniform buffer for CPU
writes" (spec section 4.4).  `none` means the call would block because no
semaphore token is available; otherwise one token is consumed, the slot
index advances round-robin modulo `MaxFramesInFlight`, and the selected
slot index — the subscript of `frameDataBuffers` (engine.hpp line 78)
whose buffer is handed to the caller — is returned. -/
def beginFrame (s : EngineState) : Option (EngineState × Nat) :=
  if s.semCount = 0 then
    none
  else
    let idx := (s.frameIndex + 1) % MaxFramesInFlight
    some ({ semCount := s.semCount - 1, begun := s.begun + 1,
            submitted := s.submitted, completed := s.completed,
            frameIndex := idx }, idx)

/-- Modelled from the spec: `Engine::endFrame` "submits the command buffer
for execution and registers a completion callback" (spec section 4.4).
Enabled only when a begun frame is still unsubmitted. -/
def endFrame (s : EngineState) : Option EngineState :=
  if s.submitted < s.begun then
    some { s with submitted := s.submitted + 1 }
  else
    none

/-- Modelled from the spec: the GPU completion callback registered by
`endFrame` "releases the slot's synchronization token back to available —
signaling `beginFrame` callers waiting on this slot" (spec section 4.4).
Enabled only when a submitted frame is still uncompleted. -/
def completeFrame (s : EngineState) : Option EngineState :=
  if s.completed < s.submitted then
    some { s with completed := s.completed + 1, semCount := s.semCount + 1 }
  else
    none

/-- One step of the render-loop scheduler: a `beginFrame` call, an
`endFrame` submission, or a GPU completion callback. -/
inductive SchedStep : EngineState → EngineState → Prop where
  | begin_frame {s s' : EngineState} (i : Nat) :
      beginFrame s = some (s', i) → SchedStep s s'
  | end_frame {s s' : EngineState} :
      endFrame s = some s' → SchedStep s s'
  | complete_frame {s s' : EngineState} :
      completeFrame s = some s' → SchedStep s s'

/-- States reachable by the render loop from the initial state. -/
inductive Reachable : EngineState → Prop where
  | init : Reachable initState
  | step {s s' : EngineState} : Reachable s → SchedStep s s' → Reachable s'

/-- A shadow-pass or main-pass command, for the per-frame command buffer. -/
inductive PassKind where
  | shadow : PassKind
  | main : PassKind
deriving DecidableEq, Repr

/-- Modelled from the spec: the per-frame encoding order of `Engine::run`
(the bodies of `drawShadow` and the main-pass encoding are not in the
sources; engine.hpp line 52 declares `drawShadow(commandBuffer)` taking
the frame's command buffer).  Spec section 4.4: "`encodeShadowPass()` then
`encodeMainPass()`: must be encoded in this order into the command
buffer".  The frame's command buffer is the list of recorded commands,
each tagged with the pass that recorded it. -/
def encodeFrame (shadowCmds mainCmds : List Nat) : List (PassKind × Nat) :=
  (shadowCmds.map fun c => (PassKind.shadow, c)) ++
  (mainCmds.map fun c => (PassKind.main, c))

/-- Exact three-component vector for the tangent-space computation.
Rational components stand for the finite float values; `Option` at the
use sites marks NaN/Inf (the result of dividing by zero). -/
structure Vec3 where
  x : ℚ
  y : ℚ
  z : ℚ
deriving DecidableEq, Repr

/-- Two-component exact vector (a UV coordinate). -/
structure Vec2 where
  x : ℚ
  y : ℚ
deriving DecidableEq, Repr

/-- Componentwise vector subtraction. -/
def Vec3.sub (a b : Vec3) : Vec3 :=
  ⟨a.x - b.x, a.y - b.y, a.z - b.z⟩

/-- Componentwise vector addition. -/
def Vec3.add (a b : Vec3) : Vec3 :=
  ⟨a.x + b.x, a.y + b.y, a.z + b.z⟩

/-- Scalar multiplication. -/
def Vec3.smul (r : ℚ) (a : Vec3) : Vec3 :=
  ⟨r * a.x, r * a.y, r * a.z⟩

/-- Division producing NaN/Inf on a zero denominator: the one operation of
the tangent computation that can poison a result. -/
def fdiv (a b : ℚ) : Option ℚ :=
  if b = 0 then none else some (a / b)

/-- Modelled from the spec: the per-triangle step of
`Mesh::calculateTangentSpace` (its body is not in the sources; mesh.hpp
line 69 is only the declaration).  Spec section 4.2: "from the 3 vertex
positions and 3 UV coordinates, solve the 2x2 linear system relating edge
vectors to UV deltas to obtain a tangent and bitangent for that triangle
face".  The solution divides by the determinant of the UV-delta system;
`none` is the NaN/Inf outcome of that division when the UV area is zero
(degenerate triangle). -/
def triTangent (p0 p1 p2 : Vec3) (uv0 uv1 uv2 : Vec2) :
    Option (Vec3 × Vec3) :=
  let e1 := p1.sub p0
  let e2 := p2.sub p0
  let d1x := uv1.x - uv0.x
  let d1y := uv1.y - uv0.y
  let d2x := uv2.x - uv0.x
  let d2y := uv2.y - uv0.y
  match fdiv 1 (d1x * d2y - d2x * d1y) with
  | none => none
  | some r =>
      some ((Vec3.smul r ((Vec3.smul d2y e1).sub (Vec3.smul d1y e2))),
            (Vec3.smul r ((Vec3.smul d1x e2).sub (Vec3.smul d2x e1))))

/-- A vertex of the tangent pass: position and UV (the attributes the
per-triangle step reads). -/
structure TVertex where
  pos : Vec3
  uv : Vec2
deriving DecidableEq, Repr

/-- The default vertex used with `List.getD` for out-of-range indices. -/
def tvDefault : TVertex := ⟨⟨0, 0, 0⟩, ⟨0, 0⟩⟩

/-- The zero accumulator each vertex starts from. -/
def zeroAcc : Vec3 × Vec3 := (⟨0, 0, 0⟩, ⟨0, 0, 0⟩)

/-- A per-vertex accumulator: the running tangent and bitangent sums, or
`none` once poisoned by a NaN contribution. -/
def TAcc := Option (Vec3 × Vec3)

/-- Adding one triangle contribution into one accumulator: NaN in either
operand poisons the sum. -/
def accAdd (acc : TAcc) (c : Option (Vec3 × Vec3)) : TAcc :=
  match acc, c with
  | some (t, b), some (ct, cb) => some (t.add ct, b.add cb)
  | _, _ => none

/-- Updating position `i` of the accumulator list. -/
def updAt (accs : List TAcc) (i : Nat) (c : Option (Vec3 × Vec3)) :
    List TAcc :=
  accs.set i (accAdd (accs.getD i (some zeroAcc)) c)

/-- Modelled from the spec: one triangle of
`Mesh::calculateTangentSpace`.  Spec section 4.2: "skip contribution from
degenerate triangles rather than dividing by zero" — when the triangle's
UV system is degenerate (`triTangent` would divide by zero) the
accumulators are left untouched; otherwise the face tangent and bitangent
are accumulated (added) into each of the triangle's three vertices. -/
def accumulateTri (verts : List TVertex) (accs : List TAcc)
    (i0 i1 i2 : Nat) : List TAcc :=
  let v0 := verts.getD i0 tvDefault
  let v1 := verts.getD i1 tvDefault
  let v2 := verts.getD i2 tvDefault
  match triTangent v0.pos v1.pos v2.pos v0.uv v1.uv v2.uv with
  | none => accs
  | some c => updAt (updAt (updAt accs i0 (some c)) i1 (some c)) i2 (some c)

/-- Modelled from the spec: the accumulation pass of
`Mesh::calculateTangentSpace` over the triangle list (three indices per
triangle), starting from zero accumulators, one per vertex. -/
def calculateTangentSpace (verts : List TVertex)
    (tris : List (Nat × Nat × Nat)) : List TAcc :=
  tris.foldl (fun accs t => accumulateTri verts accs t.1 t.2.1 t.2.2)
    (List.replicate verts.length (some zeroAcc))

/-- The scheduler state after the very first `beginFrame` call of the
render loop. -/
def stateAfterOneBegin : EngineState :=
  { semCount := 2, begun := 1, submitted := 0, completed := 0, frameIndex := 1 }

/-- The inductive invariant of the render-loop scheduler: completions never
outrun submissions, submissions never outrun `beginFrame` calls, the
semaphore count complements the frames in flight, and the slot index stays
in range. -/
def SchedInv (s : EngineState) : Prop :=
  s.completed ≤ s.submitted ∧ s.submitted ≤ s.begun ∧
  s.begun + s.semCount = s.completed + MaxFramesInFlight ∧
  s.semCount ≤ MaxFramesInFlight ∧ s.frameIndex < MaxFramesInFlight

lemma schedInv_init : SchedInv initState := by
  simp [SchedInv, initState, MaxFramesInFlight]

lemma schedInv_step {s s' : EngineState} (h : SchedInv s) (hs : SchedStep s s') :
    SchedInv s' := by
  obtain ⟨sem, bg, sub, cp, fi⟩ := s
  rcases hs with ⟨i, hb⟩ | he | hc
  · unfold beginFrame at hb
    by_cases h0 : sem = 0
    · simp [h0] at hb
    · simp only [h0, if_false, Option.some.injEq, Prod.mk.injEq] at hb
      obtain ⟨hs', _⟩ := hb
      subst hs'
      simp only [SchedInv, MaxFramesInFlight] at h ⊢
      omega
  · unfold endFrame at he
    by_cases h0 : sub < bg
    · simp only [h0, if_true, Option.some.injEq] at he
      subst he
      simp only [SchedInv, MaxFramesInFlight] at h ⊢
      omega
    · simp [h0] at he
  · unfold completeFrame at hc
    by_cases h0 : cp < sub
    · simp only [h0, if_true, Option.some.injEq] at hc
      subst hc
      simp only [SchedInv, MaxFramesInFlight] at h ⊢
      omega
    · simp [h0] at hc

lemma reachable_schedInv {s : EngineState} (h : Reachable s) : SchedInv s := by
  induction h with
  | init => exact schedInv_init
  | step _ hs ih => exact schedInv_step ih hs

/-- C1: across every execution of the render loop, the number of frames
concurrently in flight never exceeds `MaxFramesInFlight = 3`: in every
reachable scheduler state the number of `beginFrame` calls minus the
number of completed `endFrame` completion callbacks lies in `[0, 3]`,
enforced by the counting semaphore `beginFrame` waits on. -/
theorem frames_in_flight_bounded (s : EngineState) (h : Reachable s) :
    s.completed ≤ s.begun ∧ s.begun - s.completed ≤ MaxFramesInFlight := by
  have hi := reachable_schedInv h
  simp only [SchedInv, MaxFramesInFlight] at hi
  simp only [MaxFramesInFlight]
  omega

theorem frames_in_flight_bounded_witness :
    stateAfterOneBegin.completed ≤ stateAfterOneBegin.begun ∧
    stateAfterOneBegin.begun - stateAfterOneBegin.completed ≤ MaxFramesInFlight :=
  frames_in_flight_bounded stateAfterOneBegin
    (Reachable.step Reachable.init (SchedStep.begin_frame 1 (by decide)))

/-- C9: in every reachable scheduler state the current slot index is in
`[0, MaxFramesInFlight)`, and each `beginFrame` advances it round-robin to
`(current + 1) % MaxFramesInFlight`, which differs from the current index,
so two consecutive frames never write the same uniform buffer. -/
theorem frame_index_round_robin (s : EngineState) (h : Reachable s) :
    s.frameIndex < MaxFramesInFlight ∧
    ∀ s' i, beginFrame s = some (s', i) →
      s'.frameIndex = (s.frameIndex + 1) % MaxFramesInFlight ∧
      s'.frameIndex ≠ s.frameIndex := by
  have hi := reachable_schedInv h
  simp only [SchedInv] at hi
  refine ⟨hi.2.2.2.2, ?_⟩
  intro s' i hb
  unfold beginFrame at hb
  by_cases h0 : s.semCount = 0
  · simp [h0] at hb
  · simp only [h0, if_false, Option.some.injEq, Prod.mk.injEq] at hb
    obtain ⟨hs', _⟩ := hb
    subst hs'
    have hfi : s.frameIndex < MaxFramesInFlight := hi.2.2.2.2
    simp only [MaxFramesInFlight] at hfi ⊢
    exact ⟨by trivial, by omega⟩

theorem frame_index_round_robin_witness :
    stateAfterOneBegin.frameIndex = (initState.frameIndex + 1) % MaxFramesInFlight ∧
    stateAfterOneBegin.frameIndex ≠ initState.frameIndex :=
  (frame_index_round_robin initState Reachable.init).2 stateAfterOneBegin 1 (by decide)

/-- C7: `beginFrame` blocks while no semaphore token is available (the GPU
has not yet finished consuming the previous submission of the next slot);
once a token is available it consumes the token, selects the next slot
round-robin, and returns the selected slot index, the subscript of
`frameDataBuffers` whose uniform buffer is handed to the caller for CPU
writes. -/
theorem beginFrame_contract (s : EngineState) :
    (s.semCount = 0 → beginFrame s = none) ∧
    (0 < s.semCount →
      beginFrame s =
        some ({ semCount := s.semCount - 1, begun := s.begun + 1,
                submitted := s.submitted, completed := s.completed,
                frameIndex := (s.frameIndex + 1) % MaxFramesInFlight },
              (s.frameIndex + 1) % MaxFramesInFlight)) := by
  constructor
  · intro h0
    simp [beginFrame, h0]
  · intro hpos
    have h0 : ¬ s.semCount = 0 := by omega
    simp [beginFrame, h0]

theorem beginFrame_contract_witness :
    beginFrame initState = some (stateAfterOneBegin, 1) := by
  have h := (beginFrame_contract initState).2 (by decide)
  simpa [initState, stateAfterOneBegin, MaxFramesInFlight] using h

/-- C6: within the command buffer recorded for a frame, every shadow-pass
command precedes every main-pass command: a command tagged `shadow` always
has a strictly smaller position than a command tagged `main`, never the
reverse. -/
theorem shadow_pass_precedes_main_pass (shadowCmds mainCmds : List Nat)
    (i j : Nat)
    (hi : i < (encodeFrame shadowCmds mainCmds).length)
    (hj : j < (encodeFrame shadowCmds mainCmds).length)
    (hsi : ((encodeFrame shadowCmds mainCmds).get ⟨i, hi⟩).1 = PassKind.shadow)
    (hmj : ((encodeFrame shadowCmds mainCmds).get ⟨j, hj⟩).1 = PassKind.main) :
    i < j := by
  set A := shadowCmds.map fun c => (PassKind.shadow, c) with hA
  set B := mainCmds.map fun c => (PassKind.main, c) with hB
  have hi' : i < (A ++ B).length := hi
  have hj' : j < (A ++ B).length := hj
  have hsi' : ((A ++ B).get ⟨i, hi'⟩).1 = PassKind.shadow := hsi
  have hmj' : ((A ++ B).get ⟨j, hj'⟩).1 = PassKind.main := hmj
  have hiA : i < A.length := by
    by_contra hge
    push_neg at hge
    have hlt : i - A.length < B.length := by
      have : (A ++ B).length = A.length + B.length := List.length_append A B
      omega
    have he : (A ++ B).get ⟨i, hi'⟩ = B.get ⟨i - A.length, hlt⟩ := by
      simp [List.get_eq_getElem, List.getElem_append_right, hge]
    have hfst : (B.get ⟨i - A.length, hlt⟩).1 = PassKind.main := by
      simp [hB, List.get_eq_getElem]
    rw [he, hfst] at hsi'
    exact PassKind.noConfusion hsi'
  have hjB : A.length ≤ j := by
    by_contra hlt
    push_neg at hlt
    have he : (A ++ B).get ⟨j, hj'⟩ = A.get ⟨j, hlt⟩ := by
      simp [List.get_eq_getElem, List.getElem_append_left, hlt]
    have hfst : (A.get ⟨j, hlt⟩).1 = PassKind.shadow := by
      simp [hA, List.get_eq_getElem]
    rw [he, hfst] at hmj'
    exact PassKind.noConfusion hmj'
  omega

theorem shadow_pass_precedes_main_pass_witness : (0 : Nat) < 1 :=
  shadow_pass_precedes_main_pass [10] [20] 0 1 (by decide) (by decide)
    (by decide) (by decide)

/-- Whether a float is a NaN bit pattern. -/
def FP.isNaN : FP → Bool
  | .nan => true
  | _ => false

/-- Whether a float is a finite nonzero value (`num`): the values on which
IEEE equality and bit-for-bit identity coincide. -/
def FP.isNum : FP → Bool
  | .num _ => true
  | _ => false

/-- Whether every float field of a vertex is a finite nonzero value (no
NaN and no signed zero anywhere). -/
def allFiniteNonzero (v : Vertex) : Bool :=
  v.position.x.isNum && v.position.y.isNum && v.position.z.isNum &&
  v.normal.x.isNum && v.normal.y.isNum && v.normal.z.isNum &&
  v.textureCoordinate.x.isNum && v.textureCoordinate.y.isNum

/-- Whether some float field of a vertex is NaN. -/
def vertexHasNaN (v : Vertex) : Bool :=
  v.position.x.isNaN || v.position.y.isNaN || v.position.z.isNaN ||
  v.normal.x.isNaN || v.normal.y.isNaN || v.normal.z.isNaN ||
  v.textureCoordinate.x.isNaN || v.textureCoordinate.y.isNaN

/-- A vertex whose position.x is the `+0.0` bit pattern. -/
def vPlusZero : Vertex :=
  ⟨⟨.pzero, .num 1, .num 2⟩, ⟨.num 3, .num 4, .num 5⟩, ⟨.num 6, .num 7⟩, 0⟩

/-- The same vertex with position.x the `-0.0` bit pattern: numerically
equal to `vPlusZero` but not bit-for-bit identical to it. -/
def vMinusZero : Vertex :=
  ⟨⟨.nzero, .num 1, .num 2⟩, ⟨.num 3, .num 4, .num 5⟩, ⟨.num 6, .num 7⟩, 0⟩

/-- A concrete regular vertex (all float fields finite nonzero). -/
def vA : Vertex :=
  ⟨⟨.num 1, .num 2, .num 3⟩, ⟨.num 4, .num 5, .num 6⟩, ⟨.num 7, .num 8⟩, 0⟩

/-- A second concrete regular vertex, distinct from `vA`. -/
def vB : Vertex :=
  ⟨⟨.num 10, .num 2, .num 3⟩, ⟨.num 4, .num 5, .num 6⟩, ⟨.num 7, .num 8⟩, 1⟩

/-- A concrete vertex with a NaN position.x. -/
def vNaN : Vertex :=
  ⟨⟨.nan, .num 2, .num 3⟩, ⟨.num 4, .num 5, .num 6⟩, ⟨.num 7, .num 8⟩, 0⟩

/-- The default vertex used with `List.getD` in statements. -/
def vertexDefault : Vertex :=
  ⟨⟨.pzero, .pzero, .pzero⟩, ⟨.pzero, .pzero, .pzero⟩, ⟨.pzero, .pzero⟩, 0⟩

lemma ieeeEq_of_isNum_eq {x y : FP} (hx : x.isNum = true) (hy : y.isNum = true) :
    x.ieeeEq y = true ↔ x = y := by
  cases x <;> cases y <;> simp_all [FP.isNum, FP.ieeeEq]

lemma ieeeEq_refl_of_isNum {x : FP} (hx : x.isNum = true) : x.ieeeEq x = true := by
  cases x <;> simp_all [FP.isNum, FP.ieeeEq]

lemma hashFloat_congr {x y : FP} (h : x.ieeeEq y = true) :
    hashFloat x = hashFloat y := by
  cases x <;> cases y <;> simp_all [FP.ieeeEq, hashFloat]

lemma ieeeEq_symm_self {x y : FP} (h : x.ieeeEq y = true) : y.ieeeEq y = true := by
  cases x <;> cases y <;> simp_all [FP.ieeeEq]

lemma ieeeEq_nan_left (y : FP) : FP.ieeeEq .nan y = false := by
  cases y <;> rfl

lemma ieeeEq_nan_right (x : FP) : FP.ieeeEq x .nan = false := by
  cases x <;> rfl

lemma vertexEq_fields {a b : Vertex} (h : vertexEq a b = true) :
    a.position.x.ieeeEq b.position.x = true ∧
    a.position.y.ieeeEq b.position.y = true ∧
    a.position.z.ieeeEq b.position.z = true ∧
    a.normal.x.ieeeEq b.normal.x = true ∧
    a.normal.y.ieeeEq b.normal.y = true ∧
    a.normal.z.ieeeEq b.normal.z = true ∧
    a.textureCoordinate.x.ieeeEq b.textureCoordinate.x = true ∧
    a.textureCoordinate.y.ieeeEq b.textureCoordinate.y = true ∧
    a.diffuseTextureIndex = b.diffuseTextureIndex := by
  unfold vertexEq at h
  simp only [Bool.and_eq_true, decide_eq_true_eq] at h
  tauto

/-- C4 counterexample: `operator==` is not bit-for-bit identity.  The two
vertices differing only in the sign bit of a zero position.x are not
bit-identical, yet `operator==` holds between them, and the deduplicator
merges them into one unique entry. -/
theorem vertexEq_not_bit_identity :
    vertexEq vPlusZero vMinusZero = true ∧
    vPlusZero ≠ vMinusZero ∧
    (dedup [vPlusZero, vMinusZero]).1 = [vPlusZero] ∧
    (dedup [vPlusZero, vMinusZero]).2 = [0, 0] := by
  refine ⟨by decide, by decide, by decide, by decide⟩

/-- C4 (amended): `operator==` is IEEE fieldwise equality, which coincides
with bit-for-bit identity exactly on vertices with no NaN and no signed
zero field: when every float field of both vertices is finite nonzero,
`operator==` holds iff the two vertices are bit-identical.  (In general,
`+0.0` and `-0.0` fields compare equal despite distinct bits, and NaN
fields compare unequal even when bit-identical.) -/
theorem vertexEq_iff_bit_identical_on_regular (a b : Vertex)
    (ha : allFiniteNonzero a = true) (hb : allFiniteNonzero b = true) :
    vertexEq a b = true ↔ a = b := by
  obtain ⟨⟨pax, pay, paz⟩, ⟨nax, nay, naz⟩, ⟨tax, tay⟩, da⟩ := a
  obtain ⟨⟨pbx, pby, pbz⟩, ⟨nbx, nby, nbz⟩, ⟨tbx, tby⟩, db⟩ := b
  unfold allFiniteNonzero at ha hb
  simp only [Bool.and_eq_true, and_assoc] at ha hb
  obtain ⟨ha1, ha2, ha3, ha4, ha5, ha6, ha7, ha8⟩ := ha
  obtain ⟨hb1, hb2, hb3, hb4, hb5, hb6, hb7, hb8⟩ := hb
  unfold vertexEq
  simp only [Bool.and_eq_true, decide_eq_true_eq, Vertex.mk.injEq,
    Float3.mk.injEq, Float2.mk.injEq, and_assoc]
  constructor
  · rintro ⟨h1, h2, h3, h4, h5, h6, h7, h8, h9⟩
    exact ⟨(ieeeEq_of_isNum_eq ha1 hb1).mp h1,
           (ieeeEq_of_isNum_eq ha2 hb2).mp h2,
           (ieeeEq_of_isNum_eq ha3 hb3).mp h3,
           (ieeeEq_of_isNum_eq ha4 hb4).mp h4,
           (ieeeEq_of_isNum_eq ha5 hb5).mp h5,
           (ieeeEq_of_isNum_eq ha6 hb6).mp h6,
           (ieeeEq_of_isNum_eq ha7 hb7).mp h7,
           (ieeeEq_of_isNum_eq ha8 hb8).mp h8, h9⟩
  · rintro ⟨e1, e2, e3, e4, e5, e6, e7, e8, e9⟩
    subst e1 e2 e3 e4 e5 e6 e7 e8 e9
    exact ⟨ieeeEq_refl_of_isNum ha1, ieeeEq_refl_of_isNum ha2,
           ieeeEq_refl_of_isNum ha3, ieeeEq_refl_of_isNum ha4,
           ieeeEq_refl_of_isNum ha5, ieeeEq_refl_of_isNum ha6,
           ieeeEq_refl_of_isNum ha7, ieeeEq_refl_of_isNum ha8, rfl⟩

theorem vertexEq_iff_bit_identical_on_regular_witness :
    vertexEq vA vA = true ↔ vA = vA :=
  vertexEq_iff_bit_identical_on_regular vA vA (by decide) (by decide)

/-- C5: the vertex hash (a function of exactly the position, normal,
texture-coordinate and texture-index attributes) is congruent with
`operator==`: equal vertices hash equally, so the deduplication map is
well-formed; and `operator==` is sensitive to every normal component, so
two vertices whose normals differ (under IEEE comparison) are distinct
keys of the map even when all other attributes agree. -/
theorem hashVertex_congruent (a b : Vertex) (h : vertexEq a b = true) :
    hashVertex a = hashVertex b ∧
    (a.normal.x.ieeeEq b.normal.x = true ∧
     a.normal.y.ieeeEq b.normal.y = true ∧
     a.normal.z.ieeeEq b.normal.z = true) := by
  obtain ⟨h1, h2, h3, h4, h5, h6, h7, h8, h9⟩ := vertexEq_fields h
  refine ⟨?_, h4, h5, h6⟩
  unfold hashVertex hashFloat3 hashFloat2
  rw [hashFloat_congr h1, hashFloat_congr h2, hashFloat_congr h3,
    hashFloat_congr h4, hashFloat_congr h5, hashFloat_congr h6,
    hashFloat_congr h7, hashFloat_congr h8, h9]

theorem hashVertex_congruent_witness :
    hashVertex vPlusZero = hashVertex vMinusZero :=
  (hashVertex_congruent vPlusZero vMinusZero (by decide)).1

lemma triTangent_const_uv (p0 p1 p2 : Vec3) (uv : Vec2) :
    triTangent p0 p1 p2 uv uv uv = none := by
  unfold triTangent fdiv
  simp

lemma accAdd_isSome {acc : TAcc} {c : Option (Vec3 × Vec3)}
    (h : acc.isSome = true) (hc : c.isSome = true) :
    (accAdd acc c).isSome = true := by
  match acc, c with
  | some (t, b), some (ct, cb) => rfl
  | none, _ => exact absurd h (by simp [Option.isSome])
  | some (t, b), none => exact absurd hc (by simp [Option.isSome])

lemma getD_isSome {accs : List TAcc} (h : ∀ a ∈ accs, a.isSome = true)
    (i : Nat) (d : Vec3 × Vec3) : (accs.getD i (some d)).isSome = true := by
  rw [List.getD_eq_getElem?_getD]
  cases hq : accs[i]? with
  | none => simp [hq]
  | some a =>
      simp only [hq, Option.getD_some]
      exact h a (List.getElem?_mem hq)

lemma updAt_all_isSome {accs : List TAcc} {i : Nat} {c : Option (Vec3 × Vec3)}
    (h : ∀ a ∈ accs, a.isSome = true) (hc : c.isSome = true) :
    ∀ a ∈ updAt accs i c, a.isSome = true := by
  intro a ha
  unfold updAt at ha
  rcases List.mem_or_eq_of_mem_set ha with h1 | h2
  · exact h a h1
  · subst h2
    exact accAdd_isSome (getD_isSome h i zeroAcc) hc

lemma accumulateTri_all_isSome {verts : List TVertex} {accs : List TAcc}
    {i0 i1 i2 : Nat} (h : ∀ a ∈ accs, a.isSome = true) :
    ∀ a ∈ accumulateTri verts accs i0 i1 i2, a.isSome = true := by
  intro a ha
  simp only [accumulateTri] at ha
  split at ha
  · exact h a ha
  · exact updAt_all_isSome (updAt_all_isSome (updAt_all_isSome h
      Option.isSome_some) Option.isSome_some) Option.isSome_some a ha

/-- C8: the tangent-space builder is safe on degenerate triangles.  A
triangle whose three UV coordinates are identical makes the UV-system
determinant zero, so its face tangent is the NaN/Inf outcome of a division
by zero (`triTangent` returns `none`); the builder skips such a triangle,
leaving all accumulators untouched, and consequently every per-vertex
accumulated tangent/bitangent of `calculateTangentSpace` is a well-defined
finite value (`isSome`), never NaN or Inf, for every mesh. -/
theorem tangent_degenerate_safe :
    (∀ p0 p1 p2 : Vec3, ∀ uv : Vec2, triTangent p0 p1 p2 uv uv uv = none) ∧
    (∀ (verts : List TVertex) (accs : List TAcc) (i0 i1 i2 : Nat),
        (verts.getD i1 tvDefault).uv = (verts.getD i0 tvDefault).uv →
        (verts.getD i2 tvDefault).uv = (verts.getD i0 tvDefault).uv →
        accumulateTri verts accs i0 i1 i2 = accs) ∧
    (∀ (verts : List TVertex) (tris : List (Nat × Nat × Nat)),
        ∀ a ∈ calculateTangentSpace verts tris, a.isSome = true) := by
  refine ⟨fun p0 p1 p2 uv => triTangent_const_uv p0 p1 p2 uv, ?_, ?_⟩
  · intro verts accs i0 i1 i2 h1 h2
    simp only [accumulateTri]
    rw [h1, h2, triTangent_const_uv]
  · intro verts tris
    have hgen :
        ∀ (ts : List (Nat × Nat × Nat)) (accs : List TAcc),
          (∀ a ∈ accs, a.isSome = true) →
          ∀ a ∈ ts.foldl
              (fun accs t => accumulateTri verts accs t.1 t.2.1 t.2.2) accs,
            a.isSome = true := by
      intro ts
      induction ts with
      | nil => intro accs h; simpa using h
      | cons t ts ih =>
          intro accs h
          simp only [List.foldl_cons]
          exact ih _ (accumulateTri_all_isSome h)
    apply hgen
    intro a ha
    have := List.eq_of_mem_replicate ha
    subst this
    rfl

theorem tangent_degenerate_safe_witness :
    accumulateTri [tvDefault] [some zeroAcc] 0 0 0 = [some zeroAcc] :=
  tangent_degenerate_safe.2.1 [tvDefault] [some zeroAcc] 0 0 0 rfl rfl

/-- Modelled from the spec: the deduplication fold of `Mesh::loadObj`
started from an arbitrary intermediate state, for reasoning about `dedup`
by induction. -/
def dedupFrom (acc : List Vertex × List Nat) (input : List Vertex) :
    List Vertex × List Nat :=
  input.foldl dedupStep acc

lemma dedup_eq_dedupFrom (input : List Vertex) :
    dedup input = dedupFrom ([], []) input := rfl

lemma dedupFrom_nil (acc : List Vertex × List Nat) : dedupFrom acc [] = acc := rfl

lemma dedupFrom_cons (acc : List Vertex × List Nat) (v : Vertex)
    (tl : List Vertex) : dedupFrom acc (v :: tl) = dedupFrom (dedupStep acc v) tl := rfl

lemma dedupStep_some {acc : List Vertex × List Nat} {v : Vertex} {i : Nat}
    (h : acc.1.findIdx? (fun u => vertexEq u v) = some i) :
    dedupStep acc v = (acc.1, acc.2 ++ [i]) := by
  unfold dedupStep
  rw [h]

lemma dedupStep_none {acc : List Vertex × List Nat} {v : Vertex}
    (h : acc.1.findIdx? (fun u => vertexEq u v) = none) :
    dedupStep acc v = (acc.1 ++ [v], acc.2 ++ [acc.1.length]) := by
  unfold dedupStep
  rw [h]

lemma getD_append_left {α : Type} (l1 l2 : List α) (j : Nat)
    (h : j < l1.length) (d : α) : (l1 ++ l2).getD j d = l1.getD j d := by
  simp [List.getD_eq_getElem?_getD, List.getElem?_append, h]

lemma getD_append_middle {α : Type} (l1 : List α) (x : α) (s : List α)
    (d : α) : ((l1 ++ [x]) ++ s).getD l1.length d = x := by
  simp only [List.getD_eq_getElem?_getD, List.append_assoc, List.singleton_append]
  rw [List.getElem?_append]
  simp

lemma dedupFrom_uniques_grow (input : List Vertex) :
    ∀ acc : List Vertex × List Nat,
      ∃ t : List Vertex, (dedupFrom acc input).1 = acc.1 ++ t := by
  induction input with
  | nil => exact fun acc => ⟨[], by simp [dedupFrom_nil]⟩
  | cons v tl ih =>
      intro acc
      rw [dedupFrom_cons]
      cases hf : acc.1.findIdx? (fun u => vertexEq u v) with
      | some i =>
          rw [dedupStep_some hf]
          obtain ⟨t, ht⟩ := ih (acc.1, acc.2 ++ [i])
          exact ⟨t, ht⟩
      | none =>
          rw [dedupStep_none hf]
          obtain ⟨t, ht⟩ := ih (acc.1 ++ [v], acc.2 ++ [acc.1.length])
          exact ⟨v :: t, by rw [ht]; simp⟩

lemma dedupFrom_indices_grow (input : List Vertex) :
    ∀ acc : List Vertex × List Nat,
      ∃ s : List Nat, (dedupFrom acc input).2 = acc.2 ++ s := by
  induction input with
  | nil => exact fun acc => ⟨[], by simp [dedupFrom_nil]⟩
  | cons v tl ih =>
      intro acc
      rw [dedupFrom_cons]
      cases hf : acc.1.findIdx? (fun u => vertexEq u v) with
      | some i =>
          rw [dedupStep_some hf]
          obtain ⟨s, hs⟩ := ih (acc.1, acc.2 ++ [i])
          exact ⟨i :: s, by rw [hs]; simp⟩
      | none =>
          rw [dedupStep_none hf]
          obtain ⟨s, hs⟩ := ih (acc.1 ++ [v], acc.2 ++ [acc.1.length])
          exact ⟨acc.1.length :: s, by rw [hs]; simp⟩

lemma dedupFrom_lengths (input : List Vertex) :
    ∀ acc : List Vertex × List Nat,
      (dedupFrom acc input).2.length = acc.2.length + input.length ∧
      (dedupFrom acc input).1.length ≤ acc.1.length + input.length := by
  induction input with
  | nil => exact fun acc => ⟨by simp [dedupFrom_nil], by simp [dedupFrom_nil]⟩
  | cons v tl ih =>
      intro acc
      rw [dedupFrom_cons]
      cases hf : acc.1.findIdx? (fun u => vertexEq u v) with
      | some i =>
          rw [dedupStep_some hf]
          obtain ⟨h2, h1⟩ := ih (acc.1, acc.2 ++ [i])
          constructor
          · rw [h2]; simp; omega
          · refine le_trans h1 ?_
            simp
      | none =>
          rw [dedupStep_none hf]
          obtain ⟨h2, h1⟩ := ih (acc.1 ++ [v], acc.2 ++ [acc.1.length])
          constructor
          · rw [h2]; simp; omega
          · refine le_trans h1 ?_
            simp
            omega

lemma dedupStep_bounds {acc : List Vertex × List Nat} {v : Vertex}
    (h : ∀ i ∈ acc.2, i < acc.1.length) :
    ∀ i ∈ (dedupStep acc v).2, i < (dedupStep acc v).1.length := by
  cases hf : acc.1.findIdx? (fun u => vertexEq u v) with
  | some j =>
      rw [dedupStep_some hf]
      intro i hi
      rcases List.mem_append.mp hi with h1 | h2
      · exact h i h1
      · obtain ⟨hj, _⟩ := List.findIdx?_eq_some_iff_getElem.mp hf
        simp only [List.mem_singleton] at h2
        exact h2 ▸ hj
  | none =>
      rw [dedupStep_none hf]
      intro i hi
      rcases List.mem_append.mp hi with h1 | h2
      · have := h i h1
        simp only [List.length_append, List.length_singleton]
        omega
      · simp only [List.mem_singleton] at h2
        simp only [List.length_append, List.length_singleton]
        omega

lemma dedupFrom_bounds (input : List Vertex) :
    ∀ acc : List Vertex × List Nat, (∀ i ∈ acc.2, i < acc.1.length) →
      ∀ i ∈ (dedupFrom acc input).2, i < (dedupFrom acc input).1.length := by
  induction input with
  | nil => intro acc h; simpa [dedupFrom_nil] using h
  | cons v tl ih =>
      intro acc h
      rw [dedupFrom_cons]
      exact ih (dedupStep acc v) (dedupStep_bounds h)

lemma dedupFrom_pairwise (input : List Vertex) :
    ∀ acc : List Vertex × List Nat,
      acc.1.Pairwise (fun u w => vertexEq u w = false) →
      (dedupFrom acc input).1.Pairwise (fun u w => vertexEq u w = false) := by
  induction input with
  | nil => intro acc h; simpa [dedupFrom_nil] using h
  | cons v tl ih =>
      intro acc h
      rw [dedupFrom_cons]
      apply ih (dedupStep acc v)
      cases hf : acc.1.findIdx? (fun u => vertexEq u v) with
      | some i => rw [dedupStep_some hf]; exact h
      | none =>
          rw [dedupStep_none hf]
          rw [List.pairwise_append]
          refine ⟨h, List.pairwise_singleton _ _, ?_⟩
          intro a ha b hb
          simp only [List.mem_singleton] at hb
          subst hb
          have := List.findIdx?_eq_none_iff.mp hf a ha
          simpa using this

lemma isNaN_eq {x : FP} (h : x.isNaN = true) : x = FP.nan := by
  cases x <;> simp_all [FP.isNaN]

lemma vertexEq_false_of_hasNaN {v : Vertex} (h : vertexHasNaN v = true)
    (u : Vertex) : vertexEq u v = false ∧ vertexEq v u = false := by
  unfold vertexHasNaN at h
  simp only [Bool.or_eq_true] at h
  constructor
  · by_contra hne
    rw [Bool.not_eq_false] at hne
    obtain ⟨h1, h2, h3, h4, h5, h6, h7, h8, _⟩ := vertexEq_fields hne
    rcases h with ((((((hp | hp) | hp) | hp) | hp) | hp) | hp) | hp
    · rw [isNaN_eq hp, ieeeEq_nan_right] at h1; exact Bool.noConfusion h1
    · rw [isNaN_eq hp, ieeeEq_nan_right] at h2; exact Bool.noConfusion h2
    · rw [isNaN_eq hp, ieeeEq_nan_right] at h3; exact Bool.noConfusion h3
    · rw [isNaN_eq hp, ieeeEq_nan_right] at h4; exact Bool.noConfusion h4
    · rw [isNaN_eq hp, ieeeEq_nan_right] at h5; exact Bool.noConfusion h5
    · rw [isNaN_eq hp, ieeeEq_nan_right] at h6; exact Bool.noConfusion h6
    · rw [isNaN_eq hp, ieeeEq_nan_right] at h7; exact Bool.noConfusion h7
    · rw [isNaN_eq hp, ieeeEq_nan_right] at h8; exact Bool.noConfusion h8
  · by_contra hne
    rw [Bool.not_eq_false] at hne
    obtain ⟨h1, h2, h3, h4, h5, h6, h7, h8, _⟩ := vertexEq_fields hne
    rcases h with ((((((hp | hp) | hp) | hp) | hp) | hp) | hp) | hp
    · rw [isNaN_eq hp, ieeeEq_nan_left] at h1; exact Bool.noConfusion h1
    · rw [isNaN_eq hp, ieeeEq_nan_left] at h2; exact Bool.noConfusion h2
    · rw [isNaN_eq hp, ieeeEq_nan_left] at h3; exact Bool.noConfusion h3
    · rw [isNaN_eq hp, ieeeEq_nan_left] at h4; exact Bool.noConfusion h4
    · rw [isNaN_eq hp, ieeeEq_nan_left] at h5; exact Bool.noConfusion h5
    · rw [isNaN_eq hp, ieeeEq_nan_left] at h6; exact Bool.noConfusion h6
    · rw [isNaN_eq hp, ieeeEq_nan_left] at h7; exact Bool.noConfusion h7
    · rw [isNaN_eq hp, ieeeEq_nan_left] at h8; exact Bool.noConfusion h8

lemma vertexEq_self_of_vertexEq {u v : Vertex} (h : vertexEq u v = true) :
    vertexEq v v = true := by
  obtain ⟨h1, h2, h3, h4, h5, h6, h7, h8, _⟩ := vertexEq_fields h
  unfold vertexEq
  simp only [Bool.and_eq_true, decide_eq_true_eq, and_assoc]
  exact ⟨ieeeEq_symm_self h1, ieeeEq_symm_self h2, ieeeEq_symm_self h3,
    ieeeEq_symm_self h4, ieeeEq_symm_self h5, ieeeEq_symm_self h6,
    ieeeEq_symm_self h7, ieeeEq_symm_self h8, by trivial⟩

lemma vertexEq_always_false_of_irrefl {v : Vertex} (h : vertexEq v v = false)
    (u : Vertex) : vertexEq u v = false := by
  by_contra hne
  rw [Bool.not_eq_false] at hne
  rw [vertexEq_self_of_vertexEq hne] at h
  exact Bool.noConfusion h

lemma dedupFrom_roundtrip (input : List Vertex) :
    ∀ acc : List Vertex × List Nat, ∀ k, k < input.length →
      ((dedupFrom acc input).1.getD
          ((dedupFrom acc input).2.getD (acc.2.length + k) 0) vertexDefault
          = input.getD k vertexDefault) ∨
      vertexEq
        ((dedupFrom acc input).1.getD
          ((dedupFrom acc input).2.getD (acc.2.length + k) 0) vertexDefault)
        (input.getD k vertexDefault) = true := by
  induction input with
  | nil => intro acc k hk; exact absurd hk (by simp)
  | cons v tl ih =>
      intro acc k hk
      rw [dedupFrom_cons]
      cases k with
      | succ k =>
          have := ih (dedupStep acc v) k (by simpa using hk)
          have hlen2 : (dedupStep acc v).2.length = acc.2.length + 1 := by
            cases hf : acc.1.findIdx? (fun u => vertexEq u v) with
            | some i => rw [dedupStep_some hf]; simp
            | none => rw [dedupStep_none hf]; simp
          rw [hlen2] at this
          have harith : acc.2.length + 1 + k = acc.2.length + (k + 1) := by omega
          rw [harith] at this
          simpa using this
      | zero =>
          simp only [Nat.add_zero, List.getD_cons_zero]
          cases hf : acc.1.findIdx? (fun u => vertexEq u v) with
          | some i =>
              rw [dedupStep_some hf]
              obtain ⟨s, hs⟩ := dedupFrom_indices_grow tl (acc.1, acc.2 ++ [i])
              obtain ⟨t, ht⟩ := dedupFrom_uniques_grow tl (acc.1, acc.2 ++ [i])
              rw [hs, ht]
              have hidx : ((acc.1, acc.2 ++ [i]).2 ++ s).getD acc.2.length 0 = i :=
                getD_append_middle acc.2 i s 0
              rw [hidx]
              obtain ⟨hilt, hip, _⟩ := List.findIdx?_eq_some_iff_getElem.mp hf
              right
              have hu : ((acc.1, acc.2 ++ [i]).1 ++ t).getD i vertexDefault
                  = acc.1.getD i vertexDefault := getD_append_left acc.1 t i hilt _
              rw [hu]
              have : acc.1.getD i vertexDefault = acc.1[i] := by
                rw [List.getD_eq_getElem?_getD, List.getElem?_eq_getElem hilt]
                rfl
              rw [this]
              exact hip
          | none =>
              rw [dedupStep_none hf]
              obtain ⟨s, hs⟩ := dedupFrom_indices_grow tl
                (acc.1 ++ [v], acc.2 ++ [acc.1.length])
              obtain ⟨t, ht⟩ := dedupFrom_uniques_grow tl
                (acc.1 ++ [v], acc.2 ++ [acc.1.length])
              rw [hs, ht]
              have hidx : ((acc.1 ++ [v], acc.2 ++ [acc.1.length]).2 ++ s).getD
                  acc.2.length 0 = acc.1.length :=
                getD_append_middle acc.2 acc.1.length s 0
              rw [hidx]
              left
              exact getD_append_middle acc.1 v t vertexDefault

lemma dedupFrom_canonical (input : List Vertex) :
    ∀ acc : List Vertex × List Nat, ∀ k, k < input.length →
      match (dedupFrom acc input).1.findIdx?
          (fun u => vertexEq u (input.getD k vertexDefault)) with
      | some i => (dedupFrom acc input).2.getD (acc.2.length + k) 0 = i
      | none =>
          (dedupFrom acc input).1.getD
            ((dedupFrom acc input).2.getD (acc.2.length + k) 0) vertexDefault
            = input.getD k vertexDefault := by
  induction input with
  | nil => intro acc k hk; exact absurd hk (by simp)
  | cons v tl ih =>
      intro acc k hk
      rw [dedupFrom_cons]
      cases k with
      | succ k =>
          have := ih (dedupStep acc v) k (by simpa using hk)
          have hlen2 : (dedupStep acc v).2.length = acc.2.length + 1 := by
            cases hf : acc.1.findIdx? (fun u => vertexEq u v) with
            | some i => rw [dedupStep_some hf]; simp
            | none => rw [dedupStep_none hf]; simp
          rw [hlen2] at this
          have harith : acc.2.length + 1 + k = acc.2.length + (k + 1) := by omega
          rw [harith] at this
          simpa using this
      | zero =>
          simp only [Nat.add_zero, List.getD_cons_zero]
          cases hf : acc.1.findIdx? (fun u => vertexEq u v) with
          | some i =>
              rw [dedupStep_some hf]
              obtain ⟨s, hs⟩ := dedupFrom_indices_grow tl (acc.1, acc.2 ++ [i])
              obtain ⟨t, ht⟩ := dedupFrom_uniques_grow tl (acc.1, acc.2 ++ [i])
              rw [hs, ht]
              have hfind : (acc.1 ++ t).findIdx? (fun u => vertexEq u v) = some i := by
                rw [List.findIdx?_append, hf]
                rfl
              simp only at hfind ⊢
              rw [hfind]
              exact getD_append_middle acc.2 i s 0
          | none =>
              rw [dedupStep_none hf]
              obtain ⟨s, hs⟩ := dedupFrom_indices_grow tl
                (acc.1 ++ [v], acc.2 ++ [acc.1.length])
              obtain ⟨t, ht⟩ := dedupFrom_uniques_grow tl
                (acc.1 ++ [v], acc.2 ++ [acc.1.length])
              rw [hs, ht]
              simp only
              cases hvv : vertexEq v v with
              | true =>
                  have hfind : ((acc.1 ++ [v]) ++ t).findIdx?
                      (fun u => vertexEq u v) = some acc.1.length := by
                    rw [List.append_assoc, List.findIdx?_append, hf]
                    simp only [Option.none_or]
                    rw [List.singleton_append, List.findIdx?_cons]
                    simp [hvv]
                  rw [hfind]
                  exact getD_append_middle acc.2 acc.1.length s 0
              | false =>
                  have hnever := vertexEq_always_false_of_irrefl hvv
                  have hfind : ((acc.1 ++ [v]) ++ t).findIdx?
                      (fun u => vertexEq u v) = none := by
                    rw [List.findIdx?_eq_none_iff]
                    intro x _
                    exact hnever x
                  rw [hfind]
                  have hidx : ((acc.2 ++ [acc.1.length]) ++ s).getD
                      acc.2.length 0 = acc.1.length :=
                    getD_append_middle acc.2 acc.1.length s 0
                  rw [hidx]
                  exact getD_append_middle acc.1 v t vertexDefault

lemma dedupFrom_count_of_never_eq {v : Vertex}
    (hv : ∀ u, vertexEq u v = false) (input : List Vertex) :
    ∀ acc : List Vertex × List Nat,
      (dedupFrom acc input).1.count v = acc.1.count v + input.count v := by
  induction input with
  | nil => intro acc; simp [dedupFrom_nil]
  | cons w tl ih =>
      intro acc
      rw [dedupFrom_cons]
      cases hf : acc.1.findIdx? (fun u => vertexEq u w) with
      | some i =>
          rw [dedupStep_some hf]
          have hw : w ≠ v := by
            intro he
            subst he
            obtain ⟨hlt, hp, _⟩ := List.findIdx?_eq_some_iff_getElem.mp hf
            rw [hv] at hp
            exact Bool.noConfusion hp
          rw [ih (acc.1, acc.2 ++ [i])]
          have hbeq : (w == v) = false := beq_eq_false_iff_ne.mpr hw
          simp [List.count_cons, hbeq]
      | none =>
          rw [dedupStep_none hf]
          rw [ih (acc.1 ++ [w], acc.2 ++ [acc.1.length])]
          simp only [List.count_append, List.count_cons, List.count_singleton,
            List.count_nil]
          omega

/-- The canonical-index property of the deduplicator at input position
`k`: the emitted index is the position of the first unique vertex equal
(under `operator==`) to the input vertex, and when no unique vertex
compares equal (a NaN input) the emitted index holds a bit-identical copy
of the input vertex. -/
def canonicalAt (input : List Vertex) (k : Nat) : Prop :=
  match (dedup input).1.findIdx?
      (fun u => vertexEq u (input.getD k vertexDefault)) with
  | some i => (dedup input).2.getD k 0 = i
  | none =>
      (dedup input).1.getD ((dedup input).2.getD k 0) vertexDefault
        = input.getD k vertexDefault

/-- The round-trip property of the deduplicator at input position `k`:
re-expanding the emitted index against the unique sequence yields the
input vertex, either bit-identically or up to `operator==`. -/
def roundTripAt (input : List Vertex) (k : Nat) : Prop :=
  (dedup input).1.getD ((dedup input).2.getD k 0) vertexDefault
    = input.getD k vertexDefault ∨
  vertexEq ((dedup input).1.getD ((dedup input).2.getD k 0) vertexDefault)
    (input.getD k vertexDefault) = true

/-- C2: the vertex deduplicator emits (a) a unique sequence no two of
whose members compare equal under `operator==`, in first-seen order, and
(b) one index per input vertex, each index the position of the canonical
copy of that input vertex in the unique sequence (`canonicalAt`); in
particular the stream `[v0, v1, v0]` with `v0` self-equal and distinct
from `v1` yields uniques `[v0, v1]` and indices `[0, 1, 0]`. -/
theorem dedup_unique_first_seen (input : List Vertex) :
    (dedup input).1.Pairwise (fun u w => vertexEq u w = false) ∧
    (dedup input).2.length = input.length ∧
    (∀ k, k < input.length → canonicalAt input k) ∧
    (∀ v0 v1 : Vertex, vertexEq v0 v0 = true → vertexEq v0 v1 = false →
      dedup [v0, v1, v0] = ([v0, v1], [0, 1, 0])) := by
  refine ⟨?_, ?_, ?_, ?_⟩
  · rw [dedup_eq_dedupFrom]
    exact dedupFrom_pairwise input ([], []) (List.Pairwise.nil)
  · rw [dedup_eq_dedupFrom]
    simpa using (dedupFrom_lengths input ([], [])).1
  · intro k hk
    unfold canonicalAt
    rw [dedup_eq_dedupFrom]
    have := dedupFrom_canonical input ([], []) k hk
    simpa using this
  · intro v0 v1 h0 h01
    simp [dedup, dedupStep, List.findIdx?_cons, h0, h01]

theorem dedup_unique_first_seen_witness :
    dedup [vA, vB, vA] = ([vA, vB], [0, 1, 0]) :=
  (dedup_unique_first_seen [vA, vB, vA]).2.2.2 vA vB (by decide) (by decide)

/-- C3 counterexample: re-expanding the deduplicator output does not
always reproduce the input stream exactly.  For the stream
`[vPlusZero, vMinusZero]` (two vertices that are IEEE-equal but not
bit-identical, differing in the sign of a zero) the deduplicator merges
both occurrences onto the first copy, and the re-expansion yields
`[vPlusZero, vPlusZero]`, which differs from the input. -/
theorem dedup_roundtrip_not_exact :
    (dedup [vPlusZero, vMinusZero]).2.map
        (fun i => (dedup [vPlusZero, vMinusZero]).1.getD i vertexDefault)
      ≠ [vPlusZero, vMinusZero] := by
  decide

/-- C3 (amended): for every input stream the unique count is at most the
input count, every emitted index is in range of the unique sequence, and
re-expanding the indices reproduces the input stream pointwise up to
`operator==`: each re-expanded vertex is bit-identical to the input
vertex or IEEE-equal to it (its first-seen representative); bit-exact
reproduction can fail only where distinct bit patterns compare equal
(signed zeros). -/
theorem dedup_roundtrip_up_to_ieee (input : List Vertex) :
    (dedup input).1.length ≤ input.length ∧
    (∀ i ∈ (dedup input).2, i < (dedup input).1.length) ∧
    (∀ k, k < input.length → roundTripAt input k) := by
  refine ⟨?_, ?_, ?_⟩
  · rw [dedup_eq_dedupFrom]
    simpa using (dedupFrom_lengths input ([], [])).2
  · rw [dedup_eq_dedupFrom]
    exact dedupFrom_bounds input ([], []) (by simp)
  · intro k hk
    unfold roundTripAt
    rw [dedup_eq_dedupFrom]
    have := dedupFrom_roundtrip input ([], []) k hk
    simpa using this

theorem dedup_roundtrip_up_to_ieee_witness : roundTripAt [vA, vB, vA] 2 :=
  (dedup_roundtrip_up_to_ieee [vA, vB, vA]).2.2 2 (by decide)

/-- C10: `operator==` is not reflexive on a vertex with a NaN float field:
such a vertex compares unequal to itself (indeed to every vertex), so the
deduplicator never merges two of its occurrences — every occurrence in the
input stream is appended to the unique sequence as a fresh entry, and the
number of its bit-identical copies among the uniques equals the number of
its occurrences in the input. -/
theorem nan_vertex_never_merged (v : Vertex) (h : vertexHasNaN v = true) :
    vertexEq v v = false ∧
    (∀ u : Vertex, vertexEq u v = false) ∧
    (∀ input : List Vertex, (dedup input).1.count v = input.count v) := by
  have hall : ∀ u, vertexEq u v = false := fun u =>
    (vertexEq_false_of_hasNaN h u).1
  refine ⟨hall v, hall, ?_⟩
  intro input
  rw [dedup_eq_dedupFrom]
  simpa using dedupFrom_count_of_never_eq hall input ([], [])

theorem nan_vertex_never_merged_witness :
    (dedup [vNaN, vNaN]).1.count vNaN = [vNaN, vNaN].count vNaN :=
  (nan_vertex_never_merged vNaN (by decide)).2.2 [vNaN, vNaN]

end MetalCore
